import Mathlib

/-!
Verification of the procurement data rationalization pipeline in
`src/app/page.tsx` (component `Home`): the column reconciler / table merger
(`mergeAndPreview`), the rationalization pass (`rationalize`), and the CSV
export (`exportCSV`), together with the stage-navigation logic of the UI.

Modelling conventions (shallow embedding of the TypeScript/JavaScript code):

* A JavaScript string is modelled as a `List Char` (`JStr`).  Case conversion
  (`toLowerCase` / `toUpperCase`) is modelled character-wise with the core
  `Char.toLower` / `Char.toUpper`, which perform exactly the ASCII (Basic
  Latin) simple case mapping; the model is exact on ASCII data.
* `String.prototype.trim` and the regex class `\s` use the same set of
  code points (WhiteSpace plus LineTerminator); `jsWS` lists that set.
* `VALUE_ABBREVIATIONS[c]` is a JavaScript property read on a plain object
  literal.  Such a read falls through to the prototype chain: for the twelve
  property names of `Object.prototype` (`"constructor"`, `"toString"`,
  `"__proto__"`, ...) it yields an inherited *non-string* value that is
  truthy, so the branch `if (VALUE_ABBREVIATIONS[c])` is taken and the cell
  is replaced by a non-string.  The subsequent casing guard `c.length > 3`
  is false for every one of those values (functions of arity at most 2, or
  `Object.prototype` whose `length` is `undefined`), and the deduplication
  key construction `c.toLowerCase()` then throws a `TypeError`.  We model a
  normalized cell as `JsVal` (a string or the inherited non-string
  `protoRef`), and `rationalize` as returning `none` exactly when the
  original code throws.
* JavaScript `merged[idx] = cell` with `idx` produced by
  `standardCols.indexOf(...)` is always an in-bounds write, so `List.set`
  models it exactly.
-/

namespace Procure

/-- Model of a JavaScript string: a list of characters. -/
abbrev JStr := List Char

/-- The JavaScript whitespace set: the code points matched by the regex
class `\s`, which coincide with the set removed by `String.prototype.trim`
(WhiteSpace plus LineTerminator). -/
def jsWS (c : Char) : Bool :=
  let n := c.toNat
  n == 9 || n == 10 || n == 11 || n == 12 || n == 13 || n == 32 ||
  n == 0xA0 || n == 0x1680 || (0x2000 ≤ n && n ≤ 0x200A) ||
  n == 0x2028 || n == 0x2029 || n == 0x202F || n == 0x205F ||
  n == 0x3000 || n == 0xFEFF

/-- `String.prototype.trim`: remove leading and trailing whitespace. -/
def jsTrim (s : JStr) : JStr :=
  ((s.dropWhile jsWS).reverse.dropWhile jsWS).reverse

/-- Helper for `collapseWS`: `inRun` records whether the previous character
was part of a whitespace run that already emitted its single `' '`. -/
def collapseGo : Bool → JStr → JStr
  | _, [] => []
  | inRun, c :: rest =>
    if jsWS c then
      if inRun then collapseGo true rest
      else ' ' :: collapseGo true rest
    else c :: collapseGo false rest

/-- `c.replace(/\s+/g, " ")`: every maximal run of whitespace becomes a
single space. -/
def collapseWS (s : JStr) : JStr := collapseGo false s

/-- Character-wise `toLowerCase` (exact on ASCII). -/
def toLowerStr (s : JStr) : JStr := s.map Char.toLower

/-- Character-wise `toUpperCase` (exact on ASCII). -/
def toUpperStr (s : JStr) : JStr := s.map Char.toUpper

/-- The own keys of the `VALUE_ABBREVIATIONS` object literal
(`src/app/page.tsx`, lines 56-60), in source order. -/
def VALUE_ABBREVIATIONS : List (JStr × JStr) :=
  [("ea".data, "Each".data), ("ea.".data, "Each".data), ("EA".data, "Each".data),
   ("pcs".data, "Pieces".data), ("pcs.".data, "Pieces".data),
   ("PCS".data, "Pieces".data), ("pc".data, "Pieces".data),
   ("nos".data, "Numbers".data), ("nos.".data, "Numbers".data)]

/-- Own-property lookup in the abbreviation object. -/
def abbrevLookup (k : JStr) : Option JStr :=
  (VALUE_ABBREVIATIONS.find? (fun p => p.1 == k)).map (·.2)

/-- The property names a plain object literal inherits from
`Object.prototype`; a read of any of them yields a truthy non-string value
(a function, or `Object.prototype` itself for the `__proto__` accessor). -/
def objectProtoProps : List JStr :=
  ["constructor".data, "hasOwnProperty".data, "isPrototypeOf".data,
   "propertyIsEnumerable".data, "toLocaleString".data, "toString".data,
   "valueOf".data, "__proto__".data, "__defineGetter__".data,
   "__defineSetter__".data, "__lookupGetter__".data, "__lookupSetter__".data]

/-- The value a cell holds after normalization: a string, or the non-string
value obtained when the abbreviation lookup hit an inherited
`Object.prototype` member. -/
inductive JsVal where
  | str (s : JStr)
  | protoRef
deriving DecidableEq, Repr

/-- `s.split(sep)` for a single-character separator, exactly as in
JavaScript: empty tokens are kept, and `"".split(sep) = [""]`. -/
def splitChar (sep : Char) (s : JStr) : List JStr :=
  match s with
  | [] => [[]]
  | c :: rest =>
    if c = sep then [] :: splitChar sep rest
    else
      match splitChar sep rest with
      | [] => [[c]]
      | t :: ts => (c :: t) :: ts

/-- `tokens.join(sep)` for a single-character separator. -/
def joinChar (sep : Char) : List JStr → JStr
  | [] => []
  | [x] => x
  | x :: y :: xs => x ++ sep :: joinChar sep (y :: xs)

/-- One token of the casing pass:
`w.charAt(0).toUpperCase() + w.slice(1).toLowerCase()`. -/
def titleTok (w : JStr) : JStr :=
  match w with
  | [] => []
  | c :: rest => Char.toUpper c :: toLowerStr rest

/-- `c.split(" ").map(titleTok).join(" ")` from the casing branch of
`rationalize`. -/
def titleCase (s : JStr) : JStr :=
  joinChar ' ' ((splitChar ' ' s).map titleTok)

/-- The casing branch of `rationalize` (lines 239-242): applied when the
cell has length greater than 3 and equals its own upper- or lower-casing;
returns the new cell value and the casing-counter increment. -/
def casingPass (s : JStr) : JStr × Nat :=
  if 3 < s.length ∧ (s = toUpperStr s ∨ s = toLowerStr s) then
    let t := titleCase s
    if t = s then (s, 0) else (t, 1)
  else (s, 0)

/-- The result of normalizing one cell: its value and the increments it
contributed to the whitespace, abbreviation and casing counters. -/
structure NormCell where
  val : JsVal
  ws : Nat
  abbr : Nat
  cas : Nat
deriving DecidableEq, Repr

/-- The per-cell body of `rationalize` (lines 229-244): trim (counting a
whitespace fix when trimming changed the cell), collapse internal
whitespace, abbreviation substitution (a JavaScript property read, hence
also truthy for inherited `Object.prototype` members, which produce the
non-string `protoRef`), then the casing pass. -/
def normalizeCell (cell : JStr) : NormCell :=
  match abbrevLookup (collapseWS (jsTrim cell)) with
  | some e =>
    ⟨.str (casingPass e).1, if jsTrim cell = cell then 0 else 1, 1,
     (casingPass e).2⟩
  | none =>
    if collapseWS (jsTrim cell) ∈ objectProtoProps then
      ⟨.protoRef, if jsTrim cell = cell then 0 else 1, 1, 0⟩
    else
      ⟨.str (casingPass (collapseWS (jsTrim cell))).1,
       if jsTrim cell = cell then 0 else 1, 0,
       (casingPass (collapseWS (jsTrim cell))).2⟩

/-- The cell value entering the casing branch: the whitespace-normalized
cell after abbreviation substitution — or `none` when the substitution hit
an inherited `Object.prototype` member and the cell is no longer a
string. -/
def postSubst (cell : JStr) : Option JStr :=
  match abbrevLookup (collapseWS (jsTrim cell)) with
  | some e => some e
  | none =>
    if collapseWS (jsTrim cell) ∈ objectProtoProps then none
    else some (collapseWS (jsTrim cell))

/-- The deduplication key of a row:
`row.map((c) => c.toLowerCase()).join("|")` (line 253). -/
def rowKey (r : List JStr) : JStr := joinChar '|' (r.map toLowerStr)

/-- The deduplication loop (lines 249-256): keep a row whose key is new,
drop (and count) a row whose key was already seen. -/
def dedupGo (seen : List JStr) : List (List JStr) → List (List JStr) × Nat
  | [] => ([], 0)
  | r :: rs =>
    if rowKey r ∈ seen then
      ((dedupGo seen rs).1, (dedupGo seen rs).2 + 1)
    else
      (r :: (dedupGo (rowKey r :: seen) rs).1, (dedupGo (rowKey r :: seen) rs).2)

/-- Deduplication over the normalized rows, returning the kept rows and the
number of dropped rows. -/
def dedup (rows : List (List JStr)) : List (List JStr) × Nat := dedupGo [] rows

/-- Empty-row pruning (line 258): keep rows with at least one nonempty
cell. -/
def prune (rows : List (List JStr)) : List (List JStr) :=
  rows.filter (fun r => r.any (fun c => !c.isEmpty))

/-- Extract the string values of a normalized row; `none` if some cell is
the inherited non-string (on which the original code throws). -/
def allStr : List NormCell → Option (List JStr)
  | [] => some []
  | nc :: rest =>
    match nc.val, allStr rest with
    | .str s, some ss => some (s :: ss)
    | _, _ => none

/-- Extract the string values of all normalized rows. -/
def rowsStr : List (List NormCell) → Option (List (List JStr))
  | [] => some []
  | r :: rest =>
    match allStr r, rowsStr rest with
    | some rr, some rs => some (rr :: rs)
    | _, _ => none

/-- The normalized rows of a merged table, or `none` when the original code
would throw a `TypeError` while building a deduplication key. -/
def normalizedRows? (rows : List (List JStr)) : Option (List (List JStr)) :=
  rowsStr (rows.map (fun r => r.map normalizeCell))

/-- Total whitespace-fix count of the normalization pass. -/
def wsCount (rows : List (List JStr)) : Nat :=
  (rows.map (fun r => (r.map (fun c => (normalizeCell c).ws)).sum)).sum

/-- Total abbreviation-fix count of the normalization pass. -/
def abbrCount (rows : List (List JStr)) : Nat :=
  (rows.map (fun r => (r.map (fun c => (normalizeCell c).abbr)).sum)).sum

/-- Total casing-fix count of the normalization pass. -/
def casCount (rows : List (List JStr)) : Nat :=
  (rows.map (fun r => (r.map (fun c => (normalizeCell c).cas)).sum)).sum

/-- The result of the rationalization pass: the cleaned table and the
statistics fragment it reports (lines 261-270). -/
structure RatResult where
  table : List (List JStr)
  dupsRemoved : Nat
  abbreviationsFixed : Nat
  casingFixed : Nat
  whitespaceFixed : Nat
deriving DecidableEq, Repr

/-- The rationalization pipeline (`rationalize`, lines 226-272), as a
function of the merged rows: normalize every cell, deduplicate by
case-insensitive joined key, prune all-empty rows (folding the drops into
the duplicate counter).  Returns `none` exactly when the original code
throws (a cell's abbreviation lookup hit an inherited `Object.prototype`
member, making the cell a non-string so that `c.toLowerCase()` fails). -/
def rationalize (rows : List (List JStr)) : Option RatResult :=
  match normalizedRows? rows with
  | none => none
  | some nrows =>
    some { table := prune (dedup nrows).1
           dupsRemoved := (dedup nrows).2 + ((dedup nrows).1.length - (prune (dedup nrows).1).length)
           abbreviationsFixed := abbrCount rows
           casingFixed := casCount rows
           whitespaceFixed := wsCount rows }

/-! ### Column reconciliation and table merging (`mergeAndPreview`) -/

/-- The `COLUMN_SYNONYMS` table (`src/app/page.tsx`, lines 45-52):
canonical column name paired with its known aliases. -/
def COLUMN_SYNONYMS : List (JStr × List JStr) :=
  [("Part Number".data,
    ["part number".data, "p/n".data, "pn".data, "item code".data,
     "item id".data, "sku".data, "part no".data, "part no.".data]),
   ("Description".data,
    ["description".data, "desc".data, "desc.".data, "part desc".data,
     "part description".data, "item description".data, "name".data,
     "item name".data]),
   ("Quantity".data,
    ["quantity".data, "qty".data, "qty.".data, "units".data,
     "count".data, "amount".data]),
   ("Unit of Measure".data,
    ["unit of measure".data, "uom".data, "unit".data]),
   ("Unit Price".data,
    ["unit price".data, "price".data, "cost per unit".data, "cost".data,
     "rate".data, "estimated cost".data, "price per unit".data]),
   ("Supplier".data,
    ["supplier".data, "vendor".data, "mfg".data, "mfg.".data, "mfr".data,
     "mfr.".data, "manufacturer".data, "source".data])]

/-- The alias-to-canonical pairs of the `synonymLookup` map, in insertion
order (the aliases are pairwise distinct, so `Map.set` order is
immaterial). -/
def synPairs : List (JStr × JStr) :=
  COLUMN_SYNONYMS.flatMap (fun p => p.2.map (fun s => (s, p.1)))

/-- `synonymLookup.get(key)`. -/
def synLookup (k : JStr) : Option JStr :=
  (synPairs.find? (fun p => p.1 == k)).map (·.2)

/-- `src.toLowerCase().trim()`: the normalized key of a raw header. -/
def lowerTrim (h : JStr) : JStr := jsTrim (toLowerStr h)

/-- One token of the passthrough titling in `mergeAndPreview` (line 155):
`w.charAt(0).toUpperCase() + w.slice(1)` — the tail is *not* lower-cased
(unlike the casing pass of `rationalize`). -/
def capFirst (w : JStr) : JStr :=
  match w with
  | [] => []
  | c :: rest => Char.toUpper c :: rest

/-- The passthrough canonical name derived from a normalized key:
`key.split(" ").map(capFirst).join(" ")` (line 155).  Splitting is on the
single character `' '`, so runs of spaces produce empty tokens that the
join reinserts unchanged. -/
def titledOf (key : JStr) : JStr :=
  joinChar ' ' ((splitChar ' ' key).map capFirst)

/-- The resolution of a normalized header key recorded in `colMapping`:
the synonym table's canonical name when the key is a known alias, the
titled passthrough otherwise (lines 143-163). -/
def resolveCol (key : JStr) : JStr :=
  match synLookup key with
  | some std => std
  | none => titledOf key

/-- First-occurrence deduplication, the iteration order of a JavaScript
`Set`/`Map` built by repeated insertion. -/
def dedupFirstGo (seen : List JStr) : List JStr → List JStr
  | [] => []
  | x :: xs =>
    if x ∈ seen then dedupFirstGo seen xs
    else x :: dedupFirstGo (x :: seen) xs

/-- First-occurrence deduplication of a list of strings. -/
def dedupFirst (l : List JStr) : List JStr := dedupFirstGo [] l

/-- A parsed source file as handed to `mergeAndPreview`. -/
structure SourceFile where
  headers : List JStr
  rows : List (List JStr)

/-- `allSourceCols`: the distinct raw header strings across all files, in
first-seen order (line 135-136). -/
def allCols (files : List SourceFile) : List JStr :=
  dedupFirst (files.flatMap (·.headers))

/-- `standardCols`: the canonical column list, in discovery order — each
raw header resolves via `colMapping`, and a canonical name is appended the
first time it appears (lines 140-163). -/
def standardColsOf (files : List SourceFile) : List JStr :=
  dedupFirst ((allCols files).map (fun src => resolveCol (lowerTrim src)))

/-- `cols.indexOf(x)` returning `none` instead of `-1`. -/
def firstIdx (x : JStr) : List JStr → Option Nat
  | [] => none
  | y :: ys => if y = x then some 0 else (firstIdx x ys).map (· + 1)

/-- The `headerMap` of one file (lines 174-181): source column index to
canonical column index.  `if (standard)` is a JavaScript truthiness test,
so a key resolving to the empty string is skipped. -/
def headerMapOf (cols : List JStr) (headers : List JStr) (i : Nat) : Option Nat :=
  match headers[i]? with
  | none => none
  | some h =>
    if resolveCol (lowerTrim h) = [] then none
    else firstIdx (resolveCol (lowerTrim h)) cols

/-- The `row.forEach((cell, i) => ...)` write loop of the merge
(lines 184-187), with `i` the index of the next cell. -/
def mergeGo (hm : Nat → Option Nat) : Nat → List JStr → List JStr → List JStr
  | _, acc, [] => acc
  | i, acc, cell :: rest =>
    mergeGo hm (i + 1)
      (match hm i with
       | some idx => acc.set idx cell
       | none => acc) rest

/-- Merging one source row into the canonical column space: start from a
row of `n` empty strings and write each mapped cell (lines 183-188). -/
def mergeRow (n : Nat) (hm : Nat → Option Nat) (row : List JStr) : List JStr :=
  mergeGo hm 0 (List.replicate n []) row

/-- The merged table's rows: every row of every file, re-projected, in
file order then row order (lines 172-190). -/
def mergedRowsOf (files : List SourceFile) : List (List JStr) :=
  files.flatMap (fun f =>
    f.rows.map (mergeRow (standardColsOf files).length
      (headerMapOf (standardColsOf files) f.headers)))

/-! ### CSV export (`exportCSV`) -/

/-- `c.replace(/"/g, '""')`: double every double-quote character. -/
def escQuotes : JStr → JStr
  | [] => []
  | c :: rest =>
    if c = '"' then '"' :: '"' :: escQuotes rest
    else c :: escQuotes rest

/-- The header-field serialization of `exportCSV` (line 279): plain quote
wrapping, with no escaping of internal quotes. -/
def quoteWrapRaw (s : JStr) : JStr := '"' :: (s ++ ['"'])

/-- The data-field serialization of `exportCSV` (line 280): quote wrapping
with internal double quotes doubled. -/
def quoteWrapEsc (s : JStr) : JStr := '"' :: (escQuotes s ++ ['"'])

/-- `exportCSV` (lines 277-286) as a function of the rationalized headers
and rows: header line first, then one line per row, lines joined with
newlines and fields with commas. -/
def exportCSV (headers : List JStr) (rows : List (List JStr)) : JStr :=
  joinChar '\n'
    (joinChar ',' (headers.map quoteWrapRaw) ::
      rows.map (fun r => joinChar ',' (r.map quoteWrapEsc)))

/-- Modelled from the spec claim C5 wording: the same CSV layout but with
*every* field — header fields included — escaped by doubling internal
double quotes. -/
def exportCSVSpec (headers : List JStr) (rows : List (List JStr)) : JStr :=
  joinChar '\n'
    (joinChar ',' (headers.map quoteWrapEsc) ::
      rows.map (fun r => joinChar ',' (r.map quoteWrapEsc)))

/-! ### Spec-side reference functions for claims C3 and C8 -/

/-- The lower-cased cells of a row: the claim's case-insensitive view. -/
def lowRow (r : List JStr) : List JStr := r.map toLowerStr

/-- Modelled from the spec claim C3 wording: keep the first row of each
case-insensitive cellwise equivalence class, drop the rest. -/
def dedupCIGo (seen : List (List JStr)) : List (List JStr) → List (List JStr)
  | [] => []
  | r :: rs =>
    if lowRow r ∈ seen then dedupCIGo seen rs
    else r :: dedupCIGo (lowRow r :: seen) rs

/-- Case-insensitive cellwise first-occurrence deduplication (the
reference behaviour claim C3 describes). -/
def dedupCIFirst (rows : List (List JStr)) : List (List JStr) :=
  dedupCIGo [] rows

/-- Helper for `wordsWS`: accumulate the current token (reversed). -/
def wordsGo (cur : JStr) : JStr → List JStr
  | [] => if cur.isEmpty then [] else [cur.reverse]
  | c :: rest =>
    if jsWS c then
      if cur.isEmpty then wordsGo [] rest
      else cur.reverse :: wordsGo [] rest
    else wordsGo (c :: cur) rest

/-- Split a string into its maximal whitespace-free tokens. -/
def wordsWS (s : JStr) : List JStr := wordsGo [] s

/-- Modelled from the spec claim C8 wording: split the trimmed, lower-cased
header on whitespace (runs of whitespace separating tokens), capitalize the
first letter of each token, rejoin with single spaces. -/
def derivedSpecC8 (h : JStr) : JStr :=
  joinChar ' ' ((wordsWS (lowerTrim h)).map capFirst)

/-! ### Stage navigation (`Home` component, stepper and buttons) -/

/-- The four workflow stages (`Step`, line 8). -/
inductive Stage where
  | upload
  | preview
  | rationalizeStage
  | exportStage
deriving DecidableEq, Repr

/-- Position of a stage in `STEPS` (lines 10-15). -/
def stageIdx : Stage → Nat
  | .upload => 0
  | .preview => 1
  | .rationalizeStage => 2
  | .exportStage => 3

/-- The user actions that can change the current stage: a click on a
stepper entry (line 320), the navigation buttons of each stage, and the
reset link of the export stage. -/
inductive UAction where
  | stepperClick (t : Stage)
  | consolidatePreview
  | backToUpload
  | startRationalize
  | backToPreview
  | goExport
  | resetAll
deriving DecidableEq, Repr

/-- Whether an action's control is rendered and enabled at a stage:
stepper entries are enabled exactly for already-completed stages
(`disabled={!done}` with `done = i < stepIdx`, lines 315-320); the other
buttons exist only in their stage's branch of the render (lines 449, 488,
489, 563, 564, 626). -/
def avail : Stage → UAction → Bool
  | s, .stepperClick t => decide (stageIdx t < stageIdx s)
  | .upload, .consolidatePreview => true
  | .preview, .backToUpload => true
  | .preview, .startRationalize => true
  | .rationalizeStage, .backToPreview => true
  | .rationalizeStage, .goExport => true
  | .exportStage, .resetAll => true
  | _, _ => false

/-- The stage each action's handler sets (`setStep` call sites). -/
def actionTarget : UAction → Stage
  | .stepperClick t => t
  | .consolidatePreview => .preview
  | .backToUpload => .upload
  | .startRationalize => .rationalizeStage
  | .backToPreview => .preview
  | .goExport => .exportStage
  | .resetAll => .upload

/-- The stage after a user action: the handler's target when the control is
available, the unchanged stage otherwise. -/
def nextStage (s : Stage) (a : UAction) : Stage :=
  if avail s a then actionTarget a else s

/-! ### General lemmas about the pipeline -/

/-- The deduplication loop conserves rows: kept plus dropped equals the
input count, for any seen-set. -/
theorem dedupGo_length (rows : List (List JStr)) :
    ∀ seen, (dedupGo seen rows).1.length + (dedupGo seen rows).2 = rows.length := by
  induction rows with
  | nil => intro seen; simp [dedupGo]
  | cons r rs ih =>
    intro seen
    unfold dedupGo
    by_cases hk : rowKey r ∈ seen
    · simp only [if_pos hk, List.length_cons]
      have := ih seen
      omega
    · simp only [if_neg hk, List.length_cons]
      have := ih (rowKey r :: seen)
      omega

/-- `rowsStr` preserves the number of rows. -/
theorem rowsStr_length :
    ∀ (nt : List (List NormCell)) (nrows : List (List JStr)),
      rowsStr nt = some nrows → nrows.length = nt.length := by
  intro nt
  induction nt with
  | nil =>
    intro nrows h
    simp [rowsStr] at h
    simp [← h]
  | cons r rest ih =>
    intro nrows h
    unfold rowsStr at h
    cases ha : allStr r with
    | none => rw [ha] at h; cases h
    | some rr =>
      cases hr : rowsStr rest with
      | none => rw [ha, hr] at h; cases h
      | some rs =>
        rw [ha, hr] at h
        cases h
        simp [ih rs hr]

/-- When the normalization pass completes, it yields one normalized row per
input row. -/
theorem normalizedRows?_length (rows nrows : List (List JStr))
    (h : normalizedRows? rows = some nrows) : nrows.length = rows.length := by
  unfold normalizedRows? at h
  have := rowsStr_length _ _ h
  simpa using this

/-- The casing branch on a string of length at most 3 changes nothing and
counts nothing. -/
theorem casingPass_short {s : JStr} (h : s.length ≤ 3) : casingPass s = (s, 0) := by
  unfold casingPass
  rw [if_neg]
  intro hc
  omega

/-- The casing branch on a uni-case string longer than 3 produces the
title-cased string and counts a fix exactly when that changed it. -/
theorem casingPass_long {s : JStr}
    (h : 3 < s.length ∧ (s = toUpperStr s ∨ s = toLowerStr s)) :
    casingPass s = (titleCase s, if titleCase s = s then 0 else 1) := by
  unfold casingPass
  rw [if_pos h]
  by_cases ht : titleCase s = s
  · simp [ht]
  · simp [ht]

/-! ### Claim C10 -/

/-- Claim C10: the per-rule counters are not mutually exclusive per cell —
the cell `" ea. "` is changed by trimming (whitespace fix) and its
whitespace-normalized value `"ea."` is an abbreviation key (abbreviation
fix), so one run counts both for the same cell; the whole pipeline on the
one-cell table reports one whitespace fix and one abbreviation fix. -/
theorem counters_overlap_on_trimmed_abbreviation :
    normalizeCell " ea. ".data = ⟨.str "Each".data, 1, 1, 0⟩ ∧
    rationalize [[" ea. ".data]] = some ⟨[["Each".data]], 0, 1, 0, 1⟩ := by
  decide

/-! ### Claim C1 -/

/-- Claim C1 (code bug): rationalization is not idempotent.  On the merged
table `[["__PROTO__"]]` the first run succeeds and outputs `[["__proto__"]]`
(a casing fix), but re-running the pipeline on that output fails: the
abbreviation lookup `VALUE_ABBREVIATIONS["__proto__"]` finds the inherited
`Object.prototype` accessor, a truthy non-string, so the cell stops being a
string and the deduplication key construction throws — the second run
produces no table at all, let alone the same table with zero counted
fixes. -/
theorem rationalize_not_idempotent_on_proto_cell :
    rationalize [["__PROTO__".data]] =
      some ⟨[["__proto__".data]], 0, 0, 1, 0⟩ ∧
    rationalize [["__proto__".data]] = none := by
  decide

/-! ### Claim C4 -/

/-- Claim C4 (code bug): the rationalization pass is not total on arbitrary
string cells.  For the cell `"constructor"` the abbreviation lookup falls
through to the inherited `Object.prototype.constructor` (truthy), the
branch is taken, the cell becomes a non-string, and the pipeline throws
while building the deduplication key — modelled by `rationalize` returning
`none`. -/
theorem rationalize_crashes_on_constructor_cell :
    normalizeCell "constructor".data = ⟨.protoRef, 0, 1, 0⟩ ∧
    rationalize [["constructor".data]] = none := by
  decide

/-! ### Claim C2 -/

/-- Claim C2: row-count conservation — whenever the rationalization pass
completes, the number of rows of the rationalized table plus the reported
`duplicatesRemoved` counter (which counts both case-insensitive duplicate
rows and the all-empty rows dropped by pruning) equals the merged table's
row count. -/
theorem row_count_conservation (rows : List (List JStr)) (R : RatResult)
    (h : rationalize rows = some R) :
    R.table.length + R.dupsRemoved = rows.length := by
  unfold rationalize at h
  cases hn : normalizedRows? rows with
  | none => rw [hn] at h; cases h
  | some nrows =>
    rw [hn] at h
    cases h
    have h1 : (dedup nrows).1.length + (dedup nrows).2 = nrows.length :=
      dedupGo_length nrows []
    have h2 : (prune (dedup nrows).1).length ≤ (dedup nrows).1.length :=
      List.length_filter_le _ _
    have h3 := normalizedRows?_length rows nrows hn
    simp only
    omega

/-- Witness for C2 at a concrete table: three one-cell rows, of which one
is a case-insensitive duplicate and one is empty; `1 + 2 = 3`. -/
theorem row_count_conservation_witness :
    (RatResult.table ⟨[["x".data]], 2, 0, 0, 0⟩).length +
      RatResult.dupsRemoved ⟨[["x".data]], 2, 0, 0, 0⟩ =
      ([["x".data], ["X".data], [([] : JStr)]] : List (List JStr)).length :=
  row_count_conservation _ _ (by decide)

/-! ### Claim C6 -/

/-- When the post-substitution value of a cell is the string `c`, the
normalized cell is the casing pass applied to `c`, and the casing counter
is the casing pass's increment. -/
theorem normalizeCell_of_postSubst (cell c : JStr) (h : postSubst cell = some c) :
    (normalizeCell cell).val = .str (casingPass c).1 ∧
    (normalizeCell cell).cas = (casingPass c).2 := by
  unfold postSubst at h
  unfold normalizeCell
  cases ha : abbrevLookup (collapseWS (jsTrim cell)) with
  | some e =>
    rw [ha] at h
    cases h
    exact ⟨rfl, rfl⟩
  | none =>
    rw [ha] at h
    by_cases hp : collapseWS (jsTrim cell) ∈ objectProtoProps
    · rw [if_pos hp] at h; cases h
    · rw [if_neg hp] at h
      cases h
      simp [if_neg hp]

/-- Claim C6: the casing normalization rule.  For every cell whose
post-substitution value `c` is a string: if `c` is longer than 3 and
entirely upper- or lower-case, the cell becomes its title-casing (first
letter of each token capitalized, rest lower-cased) and the casing counter
is incremented exactly when that changed the string; if `c` has length at
most 3 it is left unchanged by this pass and not counted. -/
theorem casing_rule (cell c : JStr) (h : postSubst cell = some c) :
    ((3 < c.length ∧ (c = toUpperStr c ∨ c = toLowerStr c)) →
      (normalizeCell cell).val = .str (titleCase c) ∧
      (normalizeCell cell).cas = (if titleCase c = c then 0 else 1)) ∧
    (c.length ≤ 3 →
      (normalizeCell cell).val = .str c ∧ (normalizeCell cell).cas = 0) := by
  obtain ⟨hv, hc⟩ := normalizeCell_of_postSubst cell c h
  refine ⟨fun hcond => ?_, fun hshort => ?_⟩
  · rw [casingPass_long hcond] at hv hc
    exact ⟨hv, hc⟩
  · rw [casingPass_short hshort] at hv hc
    exact ⟨hv, hc⟩

/-- Witness for C6: the cell `"WIDGET ASSEMBLY"` (length 15, all
upper-case) is title-cased to `"Widget Assembly"` and counted. -/
theorem casing_rule_witness :
    (normalizeCell "WIDGET ASSEMBLY".data).val =
      .str (titleCase "WIDGET ASSEMBLY".data) ∧
    (normalizeCell "WIDGET ASSEMBLY".data).cas =
      (if titleCase "WIDGET ASSEMBLY".data = "WIDGET ASSEMBLY".data then 0 else 1) :=
  (casing_rule "WIDGET ASSEMBLY".data "WIDGET ASSEMBLY".data (by decide)).1
    (by decide)

/-! ### Claim C5 -/

/-- Counterexample to claim C5 as stated: a header field containing a
double quote is wrapped but its internal quote is *not* doubled
(`exportCSV` applies the escaping replace only to data fields, line 280
versus line 279), so the output differs from the claimed format. -/
theorem exportCSV_header_not_escaped :
    exportCSV ["a\"b".data] [] = "\"a\"b\"".data ∧
    exportCSVSpec ["a\"b".data] [] = "\"a\"\"b\"".data ∧
    exportCSV ["a\"b".data] [] ≠ exportCSVSpec ["a\"b".data] [] := by
  decide

/-- Escaping is the identity on quote-free strings. -/
theorem escQuotes_of_no_quote {s : JStr} (h : ('"' : Char) ∉ s) :
    escQuotes s = s := by
  induction s with
  | nil => rfl
  | cons c rest ih =>
    simp only [List.mem_cons, not_or] at h
    unfold escQuotes
    rw [if_neg (fun hcq => h.1 hcq.symm), ih h.2]

/-- Claim C5 amended: data fields are quote-wrapped with internal double
quotes doubled, fields joined with commas, rows with newlines, header row
first; header fields are quote-wrapped but their internal double quotes are
not escaped — so the export matches the claimed format exactly when no
header contains a double-quote character. -/
theorem exportCSV_matches_spec_of_quote_free_headers
    (headers : List JStr) (rows : List (List JStr))
    (h : ∀ s ∈ headers, ('"' : Char) ∉ s) :
    exportCSV headers rows = exportCSVSpec headers rows := by
  unfold exportCSV exportCSVSpec
  have : headers.map quoteWrapRaw = headers.map quoteWrapEsc := by
    apply List.map_congr_left
    intro s hs
    unfold quoteWrapRaw quoteWrapEsc
    rw [escQuotes_of_no_quote (h s hs)]
  rw [this]

/-- Witness for the amended C5: quote-free headers export identically under
the code's serializer and the claimed one, also in the presence of a data
field that does contain a quote. -/
theorem exportCSV_matches_spec_witness :
    exportCSV ["Part Number".data] [["a\"b".data]] =
      exportCSVSpec ["Part Number".data] [["a\"b".data]] :=
  exportCSV_matches_spec_of_quote_free_headers _ _ (by decide)

/-! ### Claim C9 -/

/-- Counterexample to claim C9 as stated: from the rationalize stage the
stepper entry for the completed upload stage is enabled
(`disabled={!done}` with `done = 0 < 2`), and clicking it sets the stage
back to upload — a user action other than reset. -/
theorem stepper_returns_to_upload_from_rationalize :
    avail .rationalizeStage (.stepperClick .upload) = true ∧
    nextStage .rationalizeStage (.stepperClick .upload) = .upload ∧
    UAction.stepperClick .upload ≠ .resetAll := by
  decide

/-- Claim C9 amended: the stage is set back to upload only by reset, by the
preview stage's explicit back button, or by the stepper's upload entry
(which is available from every later stage, not just preview); no other
action ever yields the upload stage from a later stage. -/
theorem only_reset_back_or_stepper_reach_upload (s : Stage) (a : UAction)
    (h : nextStage s a = .upload) :
    s = .upload ∨ a = .resetAll ∨ a = .backToUpload ∨
      a = .stepperClick .upload := by
  revert h
  cases a with
  | stepperClick t => cases t <;> cases s <;> decide
  | consolidatePreview => cases s <;> decide
  | backToUpload => cases s <;> decide
  | startRationalize => cases s <;> decide
  | backToPreview => cases s <;> decide
  | goExport => cases s <;> decide
  | resetAll => cases s <;> decide

/-- Witness for the amended C9: the preview stage's back button yields the
upload stage and is one of the listed actions. -/
theorem only_reset_back_or_stepper_reach_upload_witness :
    Stage.preview = Stage.upload ∨ UAction.backToUpload = UAction.resetAll ∨
      UAction.backToUpload = UAction.backToUpload ∨
      UAction.backToUpload = UAction.stepperClick Stage.upload :=
  only_reset_back_or_stepper_reach_upload .preview .backToUpload (by decide)

/-! ### Claim C3 -/

/-- `Char.ofNat` is left inverse to `toNat` on the lower-case ASCII
range. -/
theorem charOfNat_toNat_lower (n : Nat) (h1 : 97 ≤ n) (h2 : n ≤ 122) :
    (Char.ofNat n).toNat = n := by
  interval_cases n <;> decide

/-- ASCII lower-casing never produces the `'|'` character from another
character. -/
theorem toLower_ne_bar {c : Char} (h : c ≠ '|') : Char.toLower c ≠ '|' := by
  intro he
  unfold Char.toLower at he
  have he' : (if c.toNat ≥ 65 ∧ c.toNat ≤ 90 then Char.ofNat (c.toNat + 32) else c) = '|' := he
  clear he
  split at he'
  · rename_i hr
    have h3 := charOfNat_toNat_lower (c.toNat + 32) (by omega) (by omega)
    rw [he'] at h3
    have h4 : ('|' : Char).toNat = 124 := by decide
    omega
  · exact h he'

/-- Lower-casing a `'|'`-free string yields a `'|'`-free string. -/
theorem bar_not_mem_toLowerStr {s : JStr} (h : ('|' : Char) ∉ s) :
    ('|' : Char) ∉ toLowerStr s := by
  intro hm
  obtain ⟨c, hc, he⟩ := List.mem_map.mp hm
  exact toLower_ne_bar (fun hcb => h (hcb ▸ hc)) he

/-- Splitting at the first separator: two separator-free prefixes followed
by the separator determine each other. -/
theorem append_sep_inj {k : Char} :
    ∀ (x y u v : JStr), k ∉ x → k ∉ y →
      x ++ k :: u = y ++ k :: v → x = y ∧ u = v := by
  intro x
  induction x with
  | nil =>
    intro y u v _ hy h
    cases y with
    | nil => simpa using h
    | cons d y' =>
      simp only [List.nil_append, List.cons_append, List.cons.injEq] at h
      exact absurd (h.1 ▸ List.mem_cons_self d y') hy
  | cons c x' ih =>
    intro y u v hx hy h
    cases y with
    | nil =>
      simp only [List.cons_append, List.nil_append, List.cons.injEq] at h
      exact absurd (h.1 ▸ List.mem_cons_self c x') hx
    | cons d y' =>
      simp only [List.cons_append, List.cons.injEq] at h
      obtain ⟨h1, h2⟩ := h
      have hx' : k ∉ x' := fun hm => hx (List.mem_cons_of_mem c hm)
      have hy' : k ∉ y' := fun hm => hy (List.mem_cons_of_mem d hm)
      obtain ⟨h3, h4⟩ := ih y' u v hx' hy' h2
      exact ⟨by rw [h1, h3], h4⟩

/-- `join(sep)` is injective on lists of separator-free strings of equal
list length. -/
theorem joinChar_inj {k : Char} :
    ∀ (xs ys : List JStr), xs.length = ys.length →
      (∀ s ∈ xs, k ∉ s) → (∀ s ∈ ys, k ∉ s) →
      joinChar k xs = joinChar k ys → xs = ys := by
  intro xs
  induction xs with
  | nil =>
    intro ys hlen _ _ _
    cases ys with
    | nil => rfl
    | cons y ys' => simp at hlen
  | cons x xs' ih =>
    intro ys hlen hx hy h
    cases ys with
    | nil => simp at hlen
    | cons y ys' =>
      cases xs' with
      | nil =>
        cases ys' with
        | nil => simpa [joinChar] using h
        | cons y2 ys'' => simp at hlen
      | cons x2 xs'' =>
        cases ys' with
        | nil => simp at hlen
        | cons y2 ys'' =>
          simp only [joinChar] at h
          obtain ⟨h1, h2⟩ :=
            append_sep_inj x y _ _
              (hx x (List.mem_cons_self x _))
              (hy y (List.mem_cons_self y _)) h
          have := ih (y2 :: ys'') (by simpa using hlen)
            (fun s hs => hx s (List.mem_cons_of_mem x hs))
            (fun s hs => hy s (List.mem_cons_of_mem y hs)) h2
          rw [h1, this]

/-- The lower-cased cells of a row with `'|'`-free cells of length `n` are
again `'|'`-free cells of length `n`. -/
theorem lowRow_length (r : List JStr) : (lowRow r).length = r.length :=
  List.length_map r toLowerStr

/-- On tables whose rows all have the same length and whose cells are
`'|'`-free, the joined key identifies exactly the case-insensitive cellwise
class, so the key-based loop keeps exactly what the case-insensitive loop
keeps, for corresponding seen-sets. -/
theorem dedupGo_eq_ci (n : Nat) :
    ∀ (rows seenL : List (List JStr)),
      (∀ r ∈ rows, r.length = n) →
      (∀ r ∈ rows, ∀ c ∈ r, ('|' : Char) ∉ c) →
      (∀ lr ∈ seenL, lr.length = n) →
      (∀ lr ∈ seenL, ∀ c ∈ lr, ('|' : Char) ∉ c) →
      (dedupGo (seenL.map (joinChar '|')) rows).1 = dedupCIGo seenL rows := by
  intro rows
  induction rows with
  | nil => intro seenL _ _ _ _; rfl
  | cons r rs ih =>
    intro seenL hlen hbar hslen hsbar
    have hrlow_len : (lowRow r).length = n := by
      rw [lowRow_length]; exact hlen r (List.mem_cons_self r rs)
    have hrlow_bar : ∀ c ∈ lowRow r, ('|' : Char) ∉ c := by
      intro c hc
      obtain ⟨c0, hc0, rfl⟩ := List.mem_map.mp hc
      exact bar_not_mem_toLowerStr (hbar r (List.mem_cons_self r rs) c0 hc0)
    have hkey : rowKey r ∈ seenL.map (joinChar '|') ↔ lowRow r ∈ seenL := by
      constructor
      · intro hm
        obtain ⟨lr, hlr, he⟩ := List.mem_map.mp hm
        have : lr = lowRow r :=
          joinChar_inj lr (lowRow r)
            (by rw [hrlow_len]; exact hslen lr hlr)
            (hsbar lr hlr) hrlow_bar he
        rw [← this]; exact hlr
      · intro hm
        exact List.mem_map.mpr ⟨lowRow r, hm, rfl⟩
    unfold dedupGo dedupCIGo
    by_cases hm : lowRow r ∈ seenL
    · rw [if_pos (hkey.mpr hm), if_pos hm]
      exact ih seenL (fun q hq => hlen q (List.mem_cons_of_mem r hq))
        (fun q hq => hbar q (List.mem_cons_of_mem r hq)) hslen hsbar
    · rw [if_neg (fun hk => hm (hkey.mp hk)), if_neg hm]
      have hrec := ih (lowRow r :: seenL)
        (fun q hq => hlen q (List.mem_cons_of_mem r hq))
        (fun q hq => hbar q (List.mem_cons_of_mem r hq))
        (by intro lr hlr
            rcases List.mem_cons.mp hlr with h | h
            · rw [h]; exact hrlow_len
            · exact hslen lr h)
        (by intro lr hlr
            rcases List.mem_cons.mp hlr with h | h
            · rw [h]; exact hrlow_bar
            · exact hsbar lr h)
      simp only [List.map_cons] at hrec
      show r :: (dedupGo (rowKey r :: seenL.map (joinChar '|')) rs).1 =
        r :: dedupCIGo (lowRow r :: seenL) rs
      have hkdef : rowKey r = joinChar '|' (lowRow r) := rfl
      rw [hkdef, hrec]

/-- Counterexample to claim C3 as stated: the rows `["a|b", "c"]` and
`["a", "b|c"]` differ in every cell under case-insensitive comparison, yet
their lower-cased cells joined with `"|"` coincide, so the second row is
removed as a duplicate. -/
theorem dedup_conflates_rows_with_bar :
    dedup [["a|b".data, "c".data], ["a".data, "b|c".data]] =
      ([["a|b".data, "c".data]], 1) ∧
    toLowerStr "a".data ≠ toLowerStr "a|b".data ∧
    toLowerStr "b|c".data ≠ toLowerStr "c".data := by
  decide

/-- Claim C3 amended: on a table whose rows all have the same length and
whose cells never contain the separator character `'|'`, the deduplication
pass keeps exactly the first row of each case-insensitive cellwise
equivalence class (two rows equal cellwise up to case are duplicates, a row
differing from every earlier row in some cell's case-insensitive value is
kept), and counts one removal per dropped row.  Without the separator-free
proviso, rows are conflated whenever their lower-cased cells joined with
`"|"` coincide, as the counterexample shows. -/
theorem dedup_is_ci_dedup (rows : List (List JStr)) (n : Nat)
    (hlen : ∀ r ∈ rows, r.length = n)
    (hbar : ∀ r ∈ rows, ∀ c ∈ r, ('|' : Char) ∉ c) :
    dedup rows = (dedupCIFirst rows, rows.length - (dedupCIFirst rows).length) := by
  have h1 : (dedup rows).1 = dedupCIFirst rows := by
    have := dedupGo_eq_ci n rows [] hlen hbar
      (by intro lr h; cases h) (by intro lr h; cases h)
    simpa [dedup, dedupCIFirst] using this
  have h2 : (dedup rows).1.length + (dedup rows).2 = rows.length :=
    dedupGo_length rows []
  have h3 : (dedup rows).2 = rows.length - (dedupCIFirst rows).length := by
    rw [← h1]; omega
  calc dedup rows = ((dedup rows).1, (dedup rows).2) := rfl
    _ = (dedupCIFirst rows, rows.length - (dedupCIFirst rows).length) := by
        rw [h1, h3]

/-- Witness for the amended C3: three one-cell rows without `'|'`; the
case-insensitive duplicate `["AB"]` of `["ab"]` is dropped and counted,
`["cd"]` is kept. -/
theorem dedup_is_ci_dedup_witness :
    dedup [["ab".data], ["AB".data], ["cd".data]] =
      (dedupCIFirst [["ab".data], ["AB".data], ["cd".data]],
        ([["ab".data], ["AB".data], ["cd".data]] : List (List JStr)).length -
          (dedupCIFirst [["ab".data], ["AB".data], ["cd".data]]).length) :=
  dedup_is_ci_dedup _ 1 (by decide) (by decide)

/-! ### Claim C7 -/

/-- The merge write loop preserves the length of the accumulator row. -/
theorem mergeGo_length (hm : Nat → Option Nat) :
    ∀ (row : List JStr) (i : Nat) (acc : List JStr),
      (mergeGo hm i acc row).length = acc.length := by
  intro row
  induction row with
  | nil => intro i acc; rfl
  | cons cell rest ih =>
    intro i acc
    unfold mergeGo
    cases hmi : hm i with
    | none => simp only [hmi]; exact ih (i + 1) acc
    | some idx =>
      simp only [hmi]
      rw [ih (i + 1) (acc.set idx cell), List.length_set]

/-- A position never targeted by the header map keeps its accumulator
value through the write loop. -/
theorem mergeGo_getElem?_of_not_written (hm : Nat → Option Nat) (j : Nat) :
    ∀ (row : List JStr) (i : Nat) (acc : List JStr),
      (∀ i', i ≤ i' → hm i' ≠ some j) →
      (mergeGo hm i acc row)[j]? = acc[j]? := by
  intro row
  induction row with
  | nil => intro i acc _; rfl
  | cons cell rest ih =>
    intro i acc h
    unfold mergeGo
    cases hmi : hm i with
    | none =>
      simp only [hmi]
      exact ih (i + 1) acc (fun i' hi' => h i' (by omega))
    | some idx =>
      simp only [hmi]
      have hne : idx ≠ j := fun he => h i (Nat.le_refl i) (he ▸ hmi)
      rw [ih (i + 1) (acc.set idx cell) (fun i' hi' => h i' (by omega)),
        List.getElem?_set_ne hne]

/-- Unfolding equation of the write loop on a nonempty row. -/
theorem mergeGo_cons (hm : Nat → Option Nat) (i : Nat) (acc : List JStr)
    (c : JStr) (rest : List JStr) :
    mergeGo hm i acc (c :: rest) =
      mergeGo hm (i + 1)
        (match hm i with
         | some idx => acc.set idx c
         | none => acc) rest := rfl

/-- The write loop over a concatenation is the loop over the first part
followed by the loop over the second, with the index advanced. -/
theorem mergeGo_append (hm : Nat → Option Nat) :
    ∀ (l1 l2 : List JStr) (i : Nat) (acc : List JStr),
      mergeGo hm i acc (l1 ++ l2) =
        mergeGo hm (i + l1.length) (mergeGo hm i acc l1) l2 := by
  intro l1
  induction l1 with
  | nil => intro l2 i acc; simp [mergeGo]
  | cons c l1' ih =>
    intro l2 i acc
    rw [List.cons_append, mergeGo_cons, mergeGo_cons, ih l2 (i + 1) _,
      List.length_cons,
      show (i + 1) + l1'.length = i + (l1'.length + 1) by omega]

/-- The write loop is the identity once the header map is exhausted. -/
theorem mergeGo_no_writes (hm : Nat → Option Nat) :
    ∀ (l : List JStr) (i : Nat) (acc : List JStr),
      (∀ i', i ≤ i' → hm i' = none) →
      mergeGo hm i acc l = acc := by
  intro l
  induction l with
  | nil => intro i acc _; rfl
  | cons c l' ih =>
    intro i acc h
    unfold mergeGo
    rw [h i (Nat.le_refl i)]
    exact ih (i + 1) acc (fun i' hi' => h i' (by omega))

/-- The header map of a file is undefined beyond the file's header
count. -/
theorem headerMapOf_none_of_ge (cols headers : List JStr) (i : Nat)
    (h : headers.length ≤ i) : headerMapOf cols headers i = none := by
  unfold headerMapOf
  rw [List.getElem?_eq_none h]

/-- Claim C7: the merged-table shape invariant.  Every row of the merged
table has exactly the canonical header list's length; a canonical position
targeted by no source column index holds the empty string; and source cells
at positions at or beyond a file's header count never influence the merged
row (the merge of a row equals the merge of its first `headers.length`
cells) — in particular the merge is total and never throws. -/
theorem merged_table_shape (files : List SourceFile) :
    (∀ r ∈ mergedRowsOf files, r.length = (standardColsOf files).length) ∧
    (∀ (f : SourceFile) (row : List JStr) (j : Nat),
      j < (standardColsOf files).length →
      (∀ i, headerMapOf (standardColsOf files) f.headers i ≠ some j) →
      (mergeRow (standardColsOf files).length
          (headerMapOf (standardColsOf files) f.headers) row)[j]? =
        some []) ∧
    (∀ (f : SourceFile) (row : List JStr),
      mergeRow (standardColsOf files).length
          (headerMapOf (standardColsOf files) f.headers) row =
        mergeRow (standardColsOf files).length
          (headerMapOf (standardColsOf files) f.headers)
          (row.take f.headers.length)) := by
  refine ⟨?_, ?_, ?_⟩
  · intro r hr
    obtain ⟨f, hf, hr2⟩ := List.mem_flatMap.mp hr
    obtain ⟨row, hrow, rfl⟩ := List.mem_map.mp hr2
    unfold mergeRow
    rw [mergeGo_length, List.length_replicate]
  · intro f row j hj hnw
    unfold mergeRow
    rw [mergeGo_getElem?_of_not_written _ j row 0 _ (fun i' _ => hnw i'),
      List.getElem?_replicate_of_lt hj]
  · intro f row
    by_cases hrow : row.length ≤ f.headers.length
    · rw [List.take_of_length_le hrow]
    · have hsplit : row = row.take f.headers.length ++ row.drop f.headers.length :=
        (List.take_append_drop _ _).symm
      unfold mergeRow
      conv_lhs => rw [hsplit]
      rw [mergeGo_append]
      apply mergeGo_no_writes
      intro i' hi'
      apply headerMapOf_none_of_ge
      have : (row.take f.headers.length).length = f.headers.length := by
        rw [List.length_take]; omega
      omega

/-- Witness for C7: a file with one header and a row with a surplus cell;
the merged row has exactly one cell. -/
theorem merged_table_shape_witness :
    (["5".data] : List JStr).length =
      (standardColsOf [⟨["Qty".data], [["5".data, "extra".data]]⟩]).length :=
  (merged_table_shape [⟨["Qty".data], [["5".data, "extra".data]]⟩]).1
    ["5".data] (by decide)

/-! ### Claim C8 -/

/-- Counterexample to claim C8 as stated: the raw header `"a  b"` (two
internal spaces, no synonym match) derives the canonical name `"A  B"` —
the run of spaces is preserved, while the claim's formula (split on
whitespace, rejoin with single spaces) yields `"A B"`. -/
theorem passthrough_preserves_space_runs :
    synLookup (lowerTrim "a  b".data) = none ∧
    standardColsOf [⟨["a  b".data], []⟩] = ["A  B".data] ∧
    derivedSpecC8 "a  b".data = "A B".data ∧
    resolveCol (lowerTrim "a  b".data) ≠ derivedSpecC8 "a  b".data := by
  decide

/-- Claim C8 amended: for a raw header with no synonym match, the derived
canonical column equals the trimmed, lower-cased header split on single
space characters (runs of spaces yielding empty tokens that are kept),
with the first letter of each token capitalized, rejoined with single
spaces — so internal runs of spaces are preserved, not collapsed to one
space. -/
theorem passthrough_derivation (h : JStr)
    (hnone : synLookup (lowerTrim h) = none) :
    standardColsOf [⟨[h], []⟩] =
      [joinChar ' ' ((splitChar ' ' (lowerTrim h)).map capFirst)] := by
  have hres : resolveCol (lowerTrim h) =
      joinChar ' ' ((splitChar ' ' (lowerTrim h)).map capFirst) := by
    unfold resolveCol
    rw [hnone]
    rfl
  unfold standardColsOf allCols
  simp [dedupFirst, dedupFirstGo, hres]

/-- Witness for the amended C8: the header `"color"` has no synonym and
derives the passthrough column `"Color"` by the stated formula. -/
theorem passthrough_derivation_witness :
    standardColsOf [⟨["color".data], []⟩] =
      [joinChar ' ' ((splitChar ' ' (lowerTrim "color".data)).map capFirst)] :=
  passthrough_derivation "color".data (by decide)

end Procure
